import Mathlib

/-!
Shallow embedding of the product-QA retrieval code of this repository
(`src/streamlit_qa_app.py` and `src/streamlit_app.py`) together with proofs
about the retrieval, ranking, publisher-derivation and embedding-padding
operations.

Text is modelled as `List Char`; Python floats that are only compared
(never arithmetically combined) are modelled as `ℚ`; the external store is
modelled as an explicit state (`Store`) with an `up` flag so that an
unreachable store makes every issued query raise (`Except.error`), matching
the `try/except` structure of the source.  Case folding on both the Python
side (`str.lower`) and the SQL side (`ILIKE`) is modelled uniformly by
`Char.toLower`.

The keyword loop of `text_based_search_qa` calls `.or_(...)` and
`.gte(...)` on the ONE `base_query` object built before the loop;
supabase-py (postgrest-py) filter builders record the filter on the
builder itself and return it, so each iteration's request carries the
`or=` keyword groups of every earlier iteration as additional conjuncts.
The embedding threads this accumulated group list (`groups`) through
`gatherResults` explicitly.  Interpolated tokens are subject to
PostgREST's `*` → `%` rewrite of `ilike` values (`pgStarToPct`); a token
containing an `or=` syntax character (`,` `(` `)`) yields a malformed
filter string, modelled conservatively as a raising request
(`orSyntaxOk`).
-/

namespace QAApp

/-- strip of leading and trailing whitespace, as Python `str.strip()`. -/
def pyStrip (s : List Char) : List Char :=
  ((s.dropWhile Char.isWhitespace).reverse.dropWhile Char.isWhitespace).reverse

/-- split on runs of whitespace discarding empty pieces, as Python
`str.split()` with no argument. -/
def pySplit : List Char → List (List Char)
  | [] => []
  | [c] => if c.isWhitespace then [] else [[c]]
  | c :: d :: cs =>
    if c.isWhitespace then pySplit (d :: cs)
    else if d.isWhitespace then [c] :: pySplit (d :: cs)
    else
      match pySplit (d :: cs) with
      | [] => [[c]]
      | w :: ws => (c :: w) :: ws

/-- test whether `needle` occurs as a contiguous run inside `hay`, as the
Python expression `needle in hay` on strings. -/
def containsSub (needle : List Char) : List Char → Bool
  | [] => needle.isEmpty
  | d :: s => needle.isPrefixOf (d :: s) || containsSub needle s

/-- SQL `ILIKE` pattern matching: `%` matches any run of characters, `_`
matches exactly one character, and every other pattern character matches a
single character up to case (modelled by `Char.toLower` on both sides).
The whole pattern must consume the whole string. -/
def sqlLikeCI : List Char → List Char → Bool
  | [], s => s.isEmpty
  | c :: p, s =>
    if c = '%' then s.tails.any (fun s' => sqlLikeCI p s')
    else
      match s with
      | [] => false
      | d :: s' => (c == '_' || c.toLower == d.toLower) && sqlLikeCI p s'

/-- a stored `product_qa` row.  `relevance_score` models the dict key that
`text_based_search_qa` adds to each returned row (0 before scoring). -/
structure QARecord where
  id : Nat
  question : List Char
  answer : List Char
  product_name : List Char
  confidence_score : ℚ
  category_id : Nat
  relevance_score : Nat := 0
deriving DecidableEq

/-- a `product_categories` row. -/
structure QACategory where
  id : Nat
  category_name : List Char
deriving DecidableEq

/-- state of the external store.  `up := false` makes every issued query
raise, modelling an unreachable store. -/
structure Store where
  up : Bool
  categories : List QACategory
  qa : List QARecord
deriving DecidableEq

/-- the sentinel category name `"전체"` ("all") that disables filtering. -/
def allSentinel : List Char := ['전', '체']

/-- keyword extraction of `text_based_search_qa`:
`[word.strip() for word in query.split() if len(word.strip()) > 1]`. -/
def keywordsOf (query : List Char) : List (List Char) :=
  ((pySplit query).map pyStrip).filter (fun w => 1 < w.length)

/-- category acceptance of the base query: `eq('category_id', id)` is added
only when a category id was resolved. -/
def categoryOk (catId : Option Nat) (r : QARecord) : Bool :=
  match catId with
  | none => true
  | some i => r.category_id == i

/-- PostgREST rewrites every `*` in a `like`/`ilike` value to `%` before
matching; applied characterwise to the interpolated token. -/
def pgStarToPct (c : Char) : Char := if c = '*' then '%' else c

/-- the effective SQL pattern of one `ilike.%{keyword}%` condition after
PostgREST's `*` → `%` rewrite of the value. -/
def pgPattern (kw : List Char) : List Char :=
  '%' :: (kw.map pgStarToPct ++ ['%'])

/-- the disjunction of the three `ilike` conditions of one
`or=(question.ilike.%kw%,answer.ilike.%kw%,product_name.ilike.%kw%)`
filter group. -/
def ilikeMatches (kw : List Char) (r : QARecord) : Bool :=
  sqlLikeCI (pgPattern kw) r.question ||
  sqlLikeCI (pgPattern kw) r.answer ||
  sqlLikeCI (pgPattern kw) r.product_name

/-- characters that terminate or restructure a raw value inside a
PostgREST `or=(...)` filter string.  The token is interpolated unquoted,
so a token containing one of these produces a malformed (or unintended)
filter; the model conservatively treats such a request as raising, which
the source's `except` clause then swallows. -/
def orSyntaxBreaker (c : Char) : Bool := c == ',' || c == '(' || c == ')'

/-- a token that round-trips intact through the `or=` filter syntax. -/
def orSyntaxOk (kw : List Char) : Bool := kw.all (fun c => !orSyntaxBreaker c)

/-- the conjunction of ALL filters accumulated on the shared query
builder: the optional category `eq`, one `or_` keyword group per loop
iteration so far (supabase-py filter builders mutate the builder and
return it, so groups pile up across iterations), and the repeatedly added
— hence idempotent — `gte('confidence_score', 0.5)`. -/
def accPred (catId : Option Nat) (groups : List (List Char)) (r : QARecord) : Bool :=
  categoryOk catId r && groups.all (fun kw => ilikeMatches kw r)
    && decide (mkRat 1 2 ≤ r.confidence_score)

/-- one `execute()` of the shared builder carrying the accumulated filter
groups; raises when the store is unreachable or when any accumulated
group's token breaks the `or=` filter syntax (malformed request). -/
def runAccQuery (store : Store) (catId : Option Nat)
    (groups : List (List Char)) : Except Unit (List QARecord) :=
  if !(groups.all orSyntaxOk) then .error ()
  else if store.up then .ok (store.qa.filter (accPred catId groups))
  else .error ()

/-- category-filter resolution of `text_based_search_qa`: skipped for a
falsy filter or the `"전체"` sentinel, otherwise one store query whose first
row (if any) supplies the id; raises when the store is unreachable. -/
def resolveCategory (store : Store) (cf : Option (List Char)) :
    Except Unit (Option Nat) :=
  match cf with
  | none => .ok none
  | some name =>
    if name = [] then .ok none
    else if name = allSentinel then .ok none
    else if store.up then
      .ok (((store.categories.filter (fun c => c.category_name = name)).head?).map
        (fun c => c.id))
    else .error ()

/-- the `all_results` loop over keywords: each iteration first MUTATES
the shared `base_query` (its `or_`/`gte` calls append the keyword's
filter group before `execute()` runs, and the mutation persists even when
`execute()` raises), then appends the executed query's rows; a raising
query is skipped (`except ...: continue`).  `groups` is the list of
keyword groups already accumulated on the builder. -/
def gatherResults (store : Store) (catId : Option Nat)
    (groups : List (List Char)) : List (List Char) → List QARecord
  | [] => []
  | kw :: rest =>
    if 1 < kw.length then
      (match runAccQuery store catId (groups ++ [kw]) with
        | .ok data => data
        | .error _ => []) ++ gatherResults store catId (groups ++ [kw]) rest
    else gatherResults store catId groups rest

/-- the `unique_results` dict loop: keep the first row seen for each id. -/
def dedupAux (seen : List Nat) : List QARecord → List QARecord
  | [] => []
  | r :: rs =>
    if r.id ∈ seen then dedupAux seen rs
    else r :: dedupAux (r.id :: seen) rs

/-- deduplication by `id`, first occurrence wins, insertion order kept. -/
def dedupById (l : List QARecord) : List QARecord := dedupAux [] l

/-- the deduplicated candidate list (`final_results` before scoring); the
shared builder starts with no keyword group accumulated. -/
def candidatesOf (store : Store) (catId : Option Nat)
    (keywords : List (List Char)) : List QARecord :=
  dedupById (gatherResults store catId [] keywords)

/-- the scoring text `f"{question} {answer} {product_name}".lower()`. -/
def qaTextLower (r : QARecord) : List Char :=
  (r.question ++ ' ' :: (r.answer ++ ' ' :: r.product_name)).map Char.toLower

/-- the scoring loop: one point per keyword occurrence in the keyword list
whose lowering occurs in the lowered concatenated text. -/
def scoreOf (keywords : List (List Char)) (r : QARecord) : Nat :=
  keywords.countP (fun kw => containsSub (kw.map Char.toLower) (qaTextLower r))

/-- attach `relevance_score` to every candidate. -/
def setScores (keywords : List (List Char)) (l : List QARecord) : List QARecord :=
  l.map (fun r => { r with relevance_score := scoreOf keywords r })

/-- the sort key `(relevance_score, confidence_score)`. -/
def keyOf (r : QARecord) : Nat × ℚ := (r.relevance_score, r.confidence_score)

/-- lexicographic `≥` on sort keys: the order in which Python's
`sort(key=..., reverse=True)` arranges rows, earlier-or-equal meaning. -/
def KeyGE (x y : Nat × ℚ) : Prop := y.1 < x.1 ∨ (x.1 = y.1 ∧ y.2 ≤ x.2)

instance : DecidablePred fun p : (Nat × ℚ) × (Nat × ℚ) => KeyGE p.1 p.2 :=
  fun _ => by unfold KeyGE; infer_instance

instance KeyGE.decidable (x y : Nat × ℚ) : Decidable (KeyGE x y) := by
  unfold KeyGE; infer_instance

/-- Boolean form of the comparison driving the sort. -/
def keyGE (a b : QARecord) : Bool := decide (KeyGE (keyOf a) (keyOf b))

/-- stable insertion into a descending-sorted list: a row is placed before
the first existing row that does not strictly outrank it, so rows with
equal keys keep their original relative order. -/
def insertDesc (r : QARecord) : List QARecord → List QARecord
  | [] => [r]
  | s :: t => if keyGE r s then r :: s :: t else s :: insertDesc r t

/-- stable descending sort by `(relevance_score, confidence_score)`, the
behaviour of `final_results.sort(key=lambda x: (x['relevance_score'],
x['confidence_score']), reverse=True)` (Python's sort is stable; a stable
sort's output is uniquely determined by the key order and stability, so
stable insertion sort produces the identical list). -/
def sortResults : List QARecord → List QARecord
  | [] => []
  | r :: rest => insertDesc r (sortResults rest)

/-- `text_based_search_qa(query, category_filter, top_k)`: resolve the
category filter (any raise hits the outer `except` which returns `[]`),
extract keywords, gather per-keyword query results, deduplicate by id,
score, stable-sort descending, truncate to `top_k`. -/
def text_based_search_qa (store : Store) (query : List Char)
    (category_filter : Option (List Char)) (top_k : Nat) : List QARecord :=
  match resolveCategory store category_filter with
  | .error _ => []
  | .ok catId =>
    (sortResults (setScores (keywordsOf query)
      (candidatesOf store catId (keywordsOf query)))).take top_k

/-- a token is free of the SQL pattern metacharacters `%` and `_`. -/
def WildcardFree (w : List Char) : Prop := ∀ c ∈ w, c ≠ '%' ∧ c ≠ '_'

instance (w : List Char) : Decidable (WildcardFree w) := by
  unfold WildcardFree; infer_instance

/-- a token whose interpolation into the query behaves literally: free of
the SQL pattern metacharacters `%` and `_`, of `*` (which PostgREST
rewrites to `%` in `ilike` values), of the SQL `LIKE` escape character
`\` (whose escape semantics the pattern model does not cover), and of the
`or=` syntax characters `,` `(` `)`. -/
def TokenClean (w : List Char) : Prop :=
  ∀ c ∈ w, c ≠ '%' ∧ c ≠ '_' ∧ c ≠ '*' ∧ c ≠ '\\' ∧ c ≠ ',' ∧ c ≠ '(' ∧ c ≠ ')'

instance (w : List Char) : Decidable (TokenClean w) := by
  unfold TokenClean; infer_instance

/-- spec-side notion for claim C1: one token hitting one record purely by
case-insensitive substring containment in one of the three fields. -/
def substrTokenHit (kw : List Char) (r : QARecord) : Bool :=
  containsSub (kw.map Char.toLower) (r.question.map Char.toLower) ||
  containsSub (kw.map Char.toLower) (r.answer.map Char.toLower) ||
  containsSub (kw.map Char.toLower) (r.product_name.map Char.toLower)

/-- the claim-C7 query transformation: drop every whitespace-delimited
token of length at most 1 and rejoin the survivors with single spaces. -/
def joinWords : List (List Char) → List Char
  | [] => []
  | [w] => w
  | w :: ws => w ++ ' ' :: joinWords ws

/-- the query with all tokens of length at most 1 removed (claim C7). -/
def shortTokensRemoved (q : List Char) : List Char :=
  joinWords ((pySplit q).filter (fun w => 1 < w.length))

/-- keep-first deduplication of a token list (spec-side helper for the
claim-C2 notion of "distinct query tokens"). -/
def dedupTokens (seen : List (List Char)) : List (List Char) → List (List Char)
  | [] => []
  | k :: rest =>
    if k ∈ seen then dedupTokens seen rest
    else k :: dedupTokens (k :: seen) rest

/-- spec-side scoring for claim C2: count of DISTINCT tokens found in the
lowered concatenated text. -/
def distinctScoreOf (keywords : List (List Char)) (r : QARecord) : Nat :=
  (dedupTokens [] keywords).countP
    (fun kw => containsSub (kw.map Char.toLower) (qaTextLower r))

/-! ### News-publisher derivation (`process_news_item` in
`src/streamlit_app.py`) -/

/-- the character list of the literal `'https://'`. -/
def httpsLit : List Char := ['h', 't', 't', 'p', 's', ':', '/', '/']

/-- the character list of the literal `'http://'`. -/
def httpLit : List Char := ['h', 't', 't', 'p', ':', '/', '/']

/-- scanning core of Python `str.replace(old, new)` for a non-empty `old`:
left-to-right, non-overlapping; `skip` counts pattern characters still to
be consumed after a hit was emitted. -/
def replAux (pat repl : List Char) (skip : Nat) : List Char → List Char
  | [] => []
  | c :: cs =>
    match skip with
    | k + 1 => replAux pat repl k cs
    | 0 =>
      if pat.isPrefixOf (c :: cs) then repl ++ replAux pat repl (pat.length - 1) cs
      else c :: replAux pat repl 0 cs

/-- Python `s.replace(pat, repl)`: replaces EVERY non-overlapping
occurrence, scanning left to right (the source only uses non-empty `pat`,
whose special empty-pattern behaviour is therefore not modelled). -/
def pyReplace (s pat repl : List Char) : List Char :=
  replAux pat repl 0 s

/-- the publisher derivation of `process_news_item`:
`item['originallink'].replace('https://', '').replace('http://', '').split('/')[0]`
guarded by `if item.get('originallink')` with `publisher = ""` otherwise. -/
def newsPublisher (originallink : Option (List Char)) : List Char :=
  match originallink with
  | none => []
  | some l =>
    if l = [] then []
    else (pyReplace (pyReplace l httpsLit []) httpLit []).takeWhile (fun c => c ≠ '/')

/-- stripping only a LEADING scheme, as the spec's words describe it. -/
def stripSchemeSpec (l : List Char) : List Char :=
  if httpsLit.isPrefixOf l then l.drop 8
  else if httpLit.isPrefixOf l then l.drop 7
  else l

/-- spec-side publisher for claim C4: the original link with only a
leading `https://` or `http://` removed, truncated at the first `/`. -/
def leadingStripPublisherSpec (originallink : Option (List Char)) : List Char :=
  match originallink with
  | none => []
  | some l =>
    if l = [] then []
    else (stripSchemeSpec l).takeWhile (fun c => c ≠ '/')

/-! ### Embedding generation (`generate_embedding` in
`src/streamlit_app.py`) -/

/-- characters kept verbatim by the cleaning regex
`re.sub(r'[^\w\s가-힣\.]', ' ', ...)`: word characters (modelled as ASCII
alphanumerics plus `_`; the Hangul range `가-힣` of the character class is
listed explicitly), whitespace, and the dot. -/
def isWordCh (c : Char) : Bool :=
  c.isAlphanum || c == '_' || ('가' ≤ c && c ≤ '힣') || c == '.' || c.isWhitespace

/-- `re.sub(r'\s+', ' ', ...)`: collapse every whitespace run to one
space; `prevWs` records whether the previous character was whitespace. -/
def collapseWsAux (prevWs : Bool) : List Char → List Char
  | [] => []
  | c :: cs =>
    if c.isWhitespace then
      if prevWs then collapseWsAux true cs else ' ' :: collapseWsAux true cs
    else c :: collapseWsAux false cs

/-- the cleaned text handed to the encoder: strip, collapse whitespace,
replace non-word characters by spaces, truncate to 512 characters. -/
def cleanedTextOf (text : List Char) : List Char :=
  ((collapseWsAux false (pyStrip text)).map
    (fun c => if isWordCh c then c else ' ')).take 512

/-- `generate_embedding(text)`, parameterized by whether the sentence
model loaded (`embedding_model` truthiness) and by the external encoder,
which may fail (`except` branch returns `None`).  Returns `None` when the
model is absent, the text is falsy, or the stripped text is shorter than
5 characters; otherwise pads a 768-dimensional vector with 768 zeros,
returns a 1536-dimensional vector unchanged, zero-pads anything shorter
than 1536, and truncates anything longer. -/
def generate_embedding (modelLoaded : Bool)
    (encode : List Char → Except Unit (List ℚ)) (text : List Char) :
    Option (List ℚ) :=
  if !modelLoaded || text.isEmpty || (pyStrip text).length < 5 then none
  else
    match encode (cleanedTextOf text) with
    | .error _ => none
    | .ok emb =>
      if emb.length = 768 then some (emb ++ List.replicate 768 (0 : ℚ))
      else if emb.length = 1536 then some emb
      else if emb.length < 1536 then
        some (emb ++ List.replicate (1536 - emb.length) (0 : ℚ))
      else some (emb.take 1536)

/-! ### Concrete data used by counterexamples and witnesses -/

/-- record whose question is `"abc"`: hit by the ilike pattern `%a%c%`
although `"a%c"` is not a substring of any field. -/
def exRecABC : QARecord :=
  { id := 1, question := ['a', 'b', 'c'], answer := [], product_name := [],
    confidence_score := 1, category_id := 0 }

/-- single-record store for the wildcard counterexamples. -/
def exStoreABC : Store := { up := true, categories := [], qa := [exRecABC] }

/-- record mentioning `"price"` once, with confidence 0.9. -/
def exRecPrice : QARecord :=
  { id := 2, question := ['b', 'e', 's', 't', ' ', 'p', 'r', 'i', 'c', 'e'],
    answer := [], product_name := [], confidence_score := mkRat 9 10,
    category_id := 0 }

/-- single-record store for the duplicate-token counterexample. -/
def exStorePrice : Store := { up := true, categories := [], qa := [exRecPrice] }

/-- an unreachable store that nonetheless holds a matching record. -/
def exStoreDownPrice : Store :=
  { up := false, categories := [], qa := [exRecPrice] }

/-- an empty reachable store. -/
def exStoreEmpty : Store := { up := true, categories := [], qa := [] }

/-- record used by the category-filter and scoring witnesses. -/
def exRecTV : QARecord :=
  { id := 3, question := ['L', 'G', ' ', 'T', 'V', ' ', 'g', 'o', 'o', 'd'],
    answer := ['y', 'e', 's'], product_name := ['T', 'V'],
    confidence_score := mkRat 1 2, category_id := 7 }

/-- store with one category (id 7, name `"가전"`) and one record. -/
def exStoreTV : Store :=
  { up := true, categories := [{ id := 7, category_name := ['가', '전'] }],
    qa := [exRecTV] }

/-- query `"price price"` as characters. -/
def exQueryPP : List Char :=
  ['p', 'r', 'i', 'c', 'e', ' ', 'p', 'r', 'i', 'c', 'e']

/-- query `"a%c"` as characters. -/
def exQueryWild : List Char := ['a', '%', 'c']

/-- query `"a*c"` as characters (PostgREST rewrites the `*` to `%`). -/
def exQueryStar : List Char := ['a', '*', 'c']

/-- record mentioning `"beta"` but not `"alpha"`. -/
def exRecBeta : QARecord :=
  { id := 5, question := ['s', 'o', 'm', 'e', ' ', 'b', 'e', 't', 'a'],
    answer := [], product_name := [], confidence_score := 1, category_id := 0 }

/-- single-record store for the collapsed-union counterexample. -/
def exStoreBeta : Store := { up := true, categories := [], qa := [exRecBeta] }

/-- query `"alpha beta"` as characters: its first token matches nothing
in `exStoreBeta`, its second token matches `exRecBeta`. -/
def exQueryAB : List Char :=
  ['a', 'l', 'p', 'h', 'a', ' ', 'b', 'e', 't', 'a']

/-- a concrete encoder returning a 3-dimensional vector, used to witness
the padding branch of `generate_embedding`. -/
def exEncode : List Char → Except Unit (List ℚ) := fun _ => .ok [1, 2, 3]

/-! ### Characterizing the string primitives -/

theorem containsSub_iff (n h : List Char) : containsSub n h = true ↔ n <:+: h := by
  induction h with
  | nil => simp [containsSub, List.infix_nil, List.isEmpty_iff]
  | cons d s ih =>
    simp [containsSub, List.infix_cons_iff, ih, List.isPrefixOf_iff_prefix,
      or_comm]

theorem sqlLikeCI_lit (w : List Char) (hw : WildcardFree w) (s : List Char) :
    sqlLikeCI (w ++ ['%']) s
      = (w.map Char.toLower).isPrefixOf (s.map Char.toLower) := by
  induction w generalizing s with
  | nil =>
    have h1 : sqlLikeCI ['%'] s = true := by
      rw [show sqlLikeCI ['%'] s = s.tails.any (fun s' => sqlLikeCI [] s') from by
        simp [sqlLikeCI]]
      rw [List.any_eq_true]
      refine ⟨[], ?_, ?_⟩
      · simp [List.mem_tails]
      · simp [sqlLikeCI]
    simp [h1]
  | cons c w' ih =>
    have hc := hw c (List.mem_cons_self c w')
    have hcpct : ¬ c = '%' := hc.1
    have hcund : (c == '_') = false := by
      simpa using hc.2
    cases s with
    | nil => simp [sqlLikeCI, hcpct]
    | cons d s' =>
      have ih' := ih (fun x hx => hw x (List.mem_cons_of_mem c hx)) s'
      simp [sqlLikeCI, hcpct, hcund, ih', List.isPrefixOf_cons₂]

theorem sqlLikeCI_pct_cons (p : List Char) (d : Char) (s' : List Char) :
    sqlLikeCI ('%' :: p) (d :: s')
      = (sqlLikeCI p (d :: s') || sqlLikeCI ('%' :: p) s') := by
  simp [sqlLikeCI, List.tails]

theorem sqlLikeCI_pat_eq_containsSub (w : List Char) (hw : WildcardFree w)
    (s : List Char) :
    sqlLikeCI ('%' :: (w ++ ['%'])) s
      = containsSub (w.map Char.toLower) (s.map Char.toLower) := by
  induction s with
  | nil =>
    have h0 : sqlLikeCI ('%' :: (w ++ ['%'])) [] = sqlLikeCI (w ++ ['%']) [] := by
      simp [sqlLikeCI, List.tails]
    rw [h0, sqlLikeCI_lit w hw]
    cases hmw : List.map Char.toLower w with
    | nil => simp [containsSub]
    | cons c cs => simp [containsSub, List.isPrefixOf]
  | cons d s' ih =>
    rw [sqlLikeCI_pct_cons, ih, sqlLikeCI_lit w hw]
    simp [containsSub]

theorem sqlLikeCI_pat_iff (w : List Char) (hw : WildcardFree w) (s : List Char) :
    sqlLikeCI ('%' :: (w ++ ['%'])) s = true
      ↔ (w.map Char.toLower) <:+: (s.map Char.toLower) := by
  rw [sqlLikeCI_pat_eq_containsSub w hw, containsSub_iff]

/-! ### Tokenization lemmas -/

theorem pySplit_words (s : List Char) :
    ∀ w ∈ pySplit s, w ≠ [] ∧ ∀ c ∈ w, c.isWhitespace = false := by
  induction s using pySplit.induct with
  | case1 => simp [pySplit]
  | case2 c hc => simp [pySplit, hc]
  | case3 c hc =>
    intro w hw
    simp only [pySplit, if_neg hc, List.mem_singleton] at hw
    subst hw
    refine ⟨by simp, ?_⟩
    intro x hx
    simp only [List.mem_singleton] at hx
    subst hx
    simpa using hc
  | case4 c d cs hc ih =>
    intro w hw
    rw [show pySplit (c :: d :: cs) = pySplit (d :: cs) from by
      simp [pySplit, hc]] at hw
    exact ih w hw
  | case5 c d cs hc hd ih =>
    intro w hw
    rw [show pySplit (c :: d :: cs) = [c] :: pySplit (d :: cs) from by
      simp [pySplit, hc, hd]] at hw
    rcases List.mem_cons.mp hw with h | h
    · subst h
      refine ⟨by simp, ?_⟩
      intro x hx
      simp only [List.mem_singleton] at hx
      subst hx
      simpa using hc
    · exact ih w h
  | case6 c d cs hc hd hps ih =>
    intro w hw
    rw [show pySplit (c :: d :: cs) = [[c]] from by
      simp [pySplit, hc, hd, hps]] at hw
    simp only [List.mem_singleton] at hw
    subst hw
    refine ⟨by simp, ?_⟩
    intro x hx
    simp only [List.mem_singleton] at hx
    subst hx
    simpa using hc
  | case7 c d cs hc hd w1 ws1 hps ih =>
    intro w hw
    rw [show pySplit (c :: d :: cs) = (c :: w1) :: ws1 from by
      simp [pySplit, hc, hd, hps]] at hw
    rcases List.mem_cons.mp hw with h | h
    · subst h
      have h1 := ih w1 (by rw [hps]; exact List.mem_cons_self w1 ws1)
      refine ⟨by simp, ?_⟩
      intro x hx
      rcases List.mem_cons.mp hx with hx | hx
      · subst hx; simpa using hc
      · exact h1.2 x hx
    · exact ih w (by rw [hps]; exact List.mem_cons_of_mem w1 h)

theorem pySplit_ws_cons (c : Char) (hc : c.isWhitespace = true) (s : List Char) :
    pySplit (c :: s) = pySplit s := by
  cases s with
  | nil => simp [pySplit, hc]
  | cons d cs => simp [pySplit, hc]

theorem pySplit_word_append :
    ∀ w : List Char, w ≠ [] → (∀ c ∈ w, c.isWhitespace = false) →
    ∀ s : List Char, (s = [] ∨ ∃ d s', s = d :: s' ∧ d.isWhitespace = true) →
    pySplit (w ++ s) = w :: pySplit s := by
  intro w
  induction w with
  | nil => intro h; exact absurd rfl h
  | cons c w' ih =>
    intro _ hfree s hs
    have hc : c.isWhitespace = false := hfree c (List.mem_cons_self c w')
    cases w' with
    | nil =>
      rcases hs with rfl | ⟨d, s', rfl, hd⟩
      · simp [pySplit, hc]
      · simp [pySplit, hc, hd]
    | cons c2 w'' =>
      have hc2 : c2.isWhitespace = false :=
        hfree c2 (List.mem_cons_of_mem c (List.mem_cons_self c2 w''))
      have ihx : pySplit (c2 :: (w'' ++ s)) = (c2 :: w'') :: pySplit s := by
        have := ih (by simp) (fun x hx => hfree x (List.mem_cons_of_mem c hx)) s hs
        simpa [List.cons_append] using this
      simp [List.cons_append, pySplit, hc, hc2, ihx]

theorem pySplit_joinWords :
    ∀ ws : List (List Char),
    (∀ w ∈ ws, w ≠ [] ∧ ∀ c ∈ w, c.isWhitespace = false) →
    pySplit (joinWords ws) = ws := by
  intro ws
  induction ws with
  | nil => intro _; rfl
  | cons w rest ih =>
    intro h
    have hw := h w (List.mem_cons_self w rest)
    cases rest with
    | nil =>
      have := pySplit_word_append w hw.1 hw.2 [] (Or.inl rfl)
      simpa [joinWords] using this
    | cons w2 rest2 =>
      have h2 : joinWords (w :: w2 :: rest2) = w ++ ' ' :: joinWords (w2 :: rest2) := rfl
      rw [h2, pySplit_word_append w hw.1 hw.2 _
        (Or.inr ⟨' ', joinWords (w2 :: rest2), rfl, by decide⟩)]
      rw [pySplit_ws_cons ' ' (by decide)]
      rw [ih (fun x hx => h x (List.mem_cons_of_mem w hx))]

theorem dropWhile_ws_eq_self (l : List Char)
    (h : ∀ c ∈ l, c.isWhitespace = false) :
    l.dropWhile Char.isWhitespace = l := by
  cases l with
  | nil => rfl
  | cons c cs =>
    exact List.dropWhile_cons_of_neg (by simp [h c (List.mem_cons_self c cs)])

theorem pyStrip_eq_self (w : List Char)
    (h : ∀ c ∈ w, c.isWhitespace = false) : pyStrip w = w := by
  unfold pyStrip
  rw [dropWhile_ws_eq_self w h,
    dropWhile_ws_eq_self _ (fun c hc => h c (by simpa using hc)),
    List.reverse_reverse]

theorem keywordsOf_eq (q : List Char) :
    keywordsOf q = (pySplit q).filter (fun w => 1 < w.length) := by
  unfold keywordsOf
  congr 1
  have h : ∀ w ∈ pySplit q, pyStrip w = w :=
    fun w hw => pyStrip_eq_self w (pySplit_words q w hw).2
  calc (pySplit q).map pyStrip = (pySplit q).map id := List.map_congr_left h
    _ = pySplit q := List.map_id _

theorem keywordsOf_shortTokensRemoved (q : List Char) :
    keywordsOf (shortTokensRemoved q) = keywordsOf q := by
  rw [keywordsOf_eq, keywordsOf_eq]
  unfold shortTokensRemoved
  rw [pySplit_joinWords _ ?_]
  · rw [List.filter_eq_self.mpr]
    intro w hw
    exact (List.mem_filter.mp hw).2
  · intro w hw
    rcases List.mem_filter.mp hw with ⟨hmem, hlen⟩
    refine ⟨?_, (pySplit_words q w hmem).2⟩
    intro hnil
    subst hnil
    simp at hlen

theorem keywords_long (q : List Char) :
    ∀ kw ∈ keywordsOf q, 1 < kw.length := by
  intro kw hkw
  rw [keywordsOf_eq] at hkw
  simpa using (List.mem_filter.mp hkw).2

/-! ### Candidate-gathering lemmas -/

theorem accPred_iff (catId : Option Nat) (groups : List (List Char))
    (r : QARecord) :
    accPred catId groups r = true ↔
      categoryOk catId r = true ∧ (∀ g ∈ groups, ilikeMatches g r = true)
        ∧ mkRat 1 2 ≤ r.confidence_score := by
  simp [accPred, Bool.and_eq_true, List.all_eq_true, and_assoc]

theorem mem_queryData (store : Store) (catId : Option Nat)
    (groups : List (List Char)) (r : QARecord) :
    (r ∈ (match runAccQuery store catId groups with
          | .ok data => data
          | .error _ => ([] : List QARecord)))
      ↔ store.up = true ∧ groups.all orSyntaxOk = true
        ∧ r ∈ store.qa ∧ accPred catId groups r = true := by
  by_cases hs : groups.all orSyntaxOk = true
  · cases hup : store.up with
    | false => simp [runAccQuery, hs, hup]
    | true => simp [runAccQuery, hs, hup, List.mem_filter, and_assoc]
  · simp [runAccQuery, Bool.not_eq_true _ ▸ hs, hs]

theorem gatherResults_down (store : Store) (h : store.up = false)
    (catId : Option Nat) (groups : List (List Char)) (kws : List (List Char)) :
    gatherResults store catId groups kws = [] := by
  induction kws generalizing groups with
  | nil => rfl
  | cons kw rest ih =>
    simp only [gatherResults]
    by_cases hl : 1 < kw.length
    · rw [if_pos hl, ih (groups ++ [kw])]
      by_cases hs : (groups ++ [kw]).all orSyntaxOk = true
      · simp [runAccQuery, hs, h]
      · simp [runAccQuery, hs]
    · rw [if_neg hl, ih groups]

theorem gather_decomp (store : Store) (catId : Option Nat) :
    ∀ (kws groups : List (List Char)) (r : QARecord),
      r ∈ gatherResults store catId groups kws →
      r ∈ store.qa ∧ categoryOk catId r = true
        ∧ mkRat 1 2 ≤ r.confidence_score
        ∧ ∃ kw ∈ kws, 1 < kw.length ∧ ilikeMatches kw r = true := by
  intro kws
  induction kws with
  | nil => intro groups r h; simp [gatherResults] at h
  | cons kw rest ih =>
    intro groups r h
    simp only [gatherResults] at h
    split at h
    · rcases List.mem_append.mp h with h | h
      · rcases (mem_queryData store catId (groups ++ [kw]) r).mp h with
          ⟨_, _, hqa, hpred⟩
        rcases (accPred_iff catId (groups ++ [kw]) r).mp hpred with
          ⟨hcat, hall, hconf⟩
        refine ⟨hqa, hcat, hconf, kw, List.mem_cons_self kw rest, by
          assumption, ?_⟩
        exact hall kw (List.mem_append_right groups (List.mem_singleton.mpr rfl))
      · rcases ih (groups ++ [kw]) r h with ⟨hqa, hcat, hconf, kw', hkw', hl', hi'⟩
        exact ⟨hqa, hcat, hconf, kw', List.mem_cons_of_mem kw hkw', hl', hi'⟩
    · rcases ih groups r h with ⟨hqa, hcat, hconf, kw', hkw', hl', hi'⟩
      exact ⟨hqa, hcat, hconf, kw', List.mem_cons_of_mem kw hkw', hl', hi'⟩

theorem gather_groups_all (store : Store) (catId : Option Nat) :
    ∀ (kws groups : List (List Char)) (r : QARecord),
      r ∈ gatherResults store catId groups kws →
      ∀ g ∈ groups, ilikeMatches g r = true := by
  intro kws
  induction kws with
  | nil => intro groups r h; simp [gatherResults] at h
  | cons kw rest ih =>
    intro groups r h g hg
    simp only [gatherResults] at h
    split at h
    · rcases List.mem_append.mp h with h | h
      · rcases (mem_queryData store catId (groups ++ [kw]) r).mp h with
          ⟨_, _, _, hpred⟩
        rcases (accPred_iff catId (groups ++ [kw]) r).mp hpred with ⟨_, hall, _⟩
        exact hall g (List.mem_append_left [kw] hg)
      · exact ih (groups ++ [kw]) r h g (List.mem_append_left [kw] hg)
    · exact ih groups r h g hg

theorem gatherResults_subset (store : Store) (catId : Option Nat)
    (groups kws : List (List Char)) (r : QARecord)
    (h : r ∈ gatherResults store catId groups kws) : r ∈ store.qa :=
  (gather_decomp store catId kws groups r h).1

theorem mem_gather_first (store : Store) (catId : Option Nat)
    (kw1 : List Char) (rest : List (List Char)) (r : QARecord)
    (hup : store.up = true) (hlen : 1 < kw1.length)
    (hsyn : orSyntaxOk kw1 = true) :
    r ∈ gatherResults store catId [] (kw1 :: rest)
      ↔ r ∈ store.qa ∧ accPred catId [kw1] r = true := by
  rw [show gatherResults store catId [] (kw1 :: rest)
      = (match runAccQuery store catId [kw1] with
          | .ok data => data
          | .error _ => []) ++ gatherResults store catId [kw1] rest from by
    simp [gatherResults, hlen]]
  rw [List.mem_append, mem_queryData]
  constructor
  · rintro (⟨_, _, hqa, hpred⟩ | h)
    · exact ⟨hqa, hpred⟩
    · rcases gather_decomp store catId rest [kw1] r h with ⟨hqa, hcat, hconf, _⟩
      have hil : ilikeMatches kw1 r = true :=
        gather_groups_all store catId rest [kw1] r h kw1
          (List.mem_singleton.mpr rfl)
      refine ⟨hqa, (accPred_iff catId [kw1] r).mpr ⟨hcat, ?_, hconf⟩⟩
      intro g hg
      rw [List.mem_singleton.mp hg]
      exact hil
  · rintro ⟨hqa, hpred⟩
    exact Or.inl ⟨hup, by simp [hsyn], hqa, hpred⟩

/-! ### Deduplication lemmas -/

theorem dedupAux_subset :
    ∀ (l : List QARecord) (seen : List Nat) (r : QARecord),
      r ∈ dedupAux seen l → r ∈ l := by
  intro l
  induction l with
  | nil => intro seen r h; simp [dedupAux] at h
  | cons a as ih =>
    intro seen r h
    simp only [dedupAux] at h
    split at h
    · exact List.mem_cons_of_mem a (ih seen r h)
    · rcases List.mem_cons.mp h with rfl | h
      · exact List.mem_cons_self _ _
      · exact List.mem_cons_of_mem a (ih _ r h)

theorem mem_dedupAux :
    ∀ (l : List QARecord),
      (∀ a ∈ l, ∀ b ∈ l, a.id = b.id → a = b) →
      ∀ (seen : List Nat) (r : QARecord),
        r ∈ dedupAux seen l ↔ r ∈ l ∧ r.id ∉ seen := by
  intro l
  induction l with
  | nil => intro _ seen r; simp [dedupAux]
  | cons a as ih =>
    intro hinj seen r
    have hinj' : ∀ x ∈ as, ∀ y ∈ as, x.id = y.id → x = y := fun x hx y hy =>
      hinj x (List.mem_cons_of_mem a hx) y (List.mem_cons_of_mem a hy)
    simp only [dedupAux]
    by_cases hseen : a.id ∈ seen
    · rw [if_pos hseen, ih hinj' seen r]
      constructor
      · rintro ⟨h1, h2⟩; exact ⟨List.mem_cons_of_mem a h1, h2⟩
      · rintro ⟨h1, h2⟩
        rcases List.mem_cons.mp h1 with rfl | h1
        · exact absurd hseen h2
        · exact ⟨h1, h2⟩
    · rw [if_neg hseen]
      constructor
      · intro h
        rcases List.mem_cons.mp h with rfl | h
        · exact ⟨List.mem_cons_self r as, hseen⟩
        · rcases (ih hinj' _ r).mp h with ⟨h1, h2⟩
          exact ⟨List.mem_cons_of_mem a h1,
            fun hc => h2 (List.mem_cons_of_mem _ hc)⟩
      · rintro ⟨h1, h2⟩
        rcases List.mem_cons.mp h1 with rfl | h1
        · exact List.mem_cons_self r _
        · by_cases hid : r.id = a.id
          · have : r = a := hinj r (List.mem_cons_of_mem a h1) a
              (List.mem_cons_self a as) hid
            rw [this]
            exact List.mem_cons_self a _
          · refine List.mem_cons_of_mem a ((ih hinj' _ r).mpr ⟨h1, ?_⟩)
            intro hc
            rcases List.mem_cons.mp hc with heq | hc
            · exact hid heq
            · exact h2 hc

theorem mem_dedupById (l : List QARecord)
    (hinj : ∀ a ∈ l, ∀ b ∈ l, a.id = b.id → a = b) (r : QARecord) :
    r ∈ dedupById l ↔ r ∈ l := by
  unfold dedupById
  rw [mem_dedupAux l hinj]
  simp

theorem dedupById_subset (l : List QARecord) (r : QARecord) :
    r ∈ dedupById l → r ∈ l := dedupAux_subset l [] r

/-! ### Sorting lemmas -/

theorem keyGE_rfl (x : Nat × ℚ) : KeyGE x x := Or.inr ⟨rfl, le_refl _⟩

theorem keyGE_total (x y : Nat × ℚ) : KeyGE x y ∨ KeyGE y x := by
  rcases lt_trichotomy x.1 y.1 with h | h | h
  · exact Or.inr (Or.inl h)
  · rcases le_total y.2 x.2 with h2 | h2
    · exact Or.inl (Or.inr ⟨h, h2⟩)
    · exact Or.inr (Or.inr ⟨h.symm, h2⟩)
  · exact Or.inl (Or.inl h)

theorem keyGE_trans {x y z : Nat × ℚ} (h1 : KeyGE x y) (h2 : KeyGE y z) :
    KeyGE x z := by
  rcases h1 with h1 | ⟨h1, h1'⟩ <;> rcases h2 with h2 | ⟨h2, h2'⟩
  · exact Or.inl (h2.trans h1)
  · exact Or.inl (h2 ▸ h1)
  · exact Or.inl (h1 ▸ h2)
  · exact Or.inr ⟨h1.trans h2, h2'.trans h1'⟩

theorem keyGE_of_not (a b : QARecord) (h : keyGE a b = false) :
    KeyGE (keyOf b) (keyOf a) ∧ keyOf a ≠ keyOf b := by
  have hn : ¬ KeyGE (keyOf a) (keyOf b) := by
    intro hc
    rw [show keyGE a b = decide (KeyGE (keyOf a) (keyOf b)) from rfl] at h
    simp [hc] at h
  refine ⟨(keyGE_total (keyOf a) (keyOf b)).resolve_left hn, ?_⟩
  intro he
  exact hn (he ▸ keyGE_rfl (keyOf a))

theorem insertDesc_perm (r : QARecord) (l : List QARecord) :
    (insertDesc r l).Perm (r :: l) := by
  induction l with
  | nil => exact List.Perm.refl _
  | cons s t ih =>
    unfold insertDesc
    split
    · exact List.Perm.refl _
    · exact (List.Perm.cons s ih).trans (List.Perm.swap r s t)

theorem sortResults_perm (l : List QARecord) : (sortResults l).Perm l := by
  induction l with
  | nil => exact List.Perm.refl _
  | cons r t ih =>
    exact (insertDesc_perm r (sortResults t)).trans (List.Perm.cons r ih)

theorem mem_sortResults (l : List QARecord) (r : QARecord) :
    r ∈ sortResults l ↔ r ∈ l := (sortResults_perm l).mem_iff

theorem insertDesc_pairwise (r : QARecord) (l : List QARecord)
    (h : l.Pairwise (fun a b => KeyGE (keyOf a) (keyOf b))) :
    (insertDesc r l).Pairwise (fun a b => KeyGE (keyOf a) (keyOf b)) := by
  induction l with
  | nil => simp [insertDesc]
  | cons s t ih =>
    rcases List.pairwise_cons.mp h with ⟨hfa, ht⟩
    unfold insertDesc
    by_cases hks : keyGE r s = true
    · rw [if_pos hks]
      refine List.pairwise_cons.mpr ⟨?_, h⟩
      intro b hb
      rcases List.mem_cons.mp hb with rfl | hb
      · exact of_decide_eq_true hks
      · exact keyGE_trans (of_decide_eq_true hks) (hfa b hb)
    · rw [if_neg (by simp [hks])]
      refine List.pairwise_cons.mpr ⟨?_, ih ht⟩
      intro b hb
      rcases List.mem_cons.mp ((insertDesc_perm r t).mem_iff.mp hb) with rfl | hb
      · exact (keyGE_of_not b s (by simpa using hks)).1
      · exact hfa b hb

theorem sortResults_pairwise (l : List QARecord) :
    (sortResults l).Pairwise (fun a b => KeyGE (keyOf a) (keyOf b)) := by
  induction l with
  | nil => simp [sortResults]
  | cons r t ih => exact insertDesc_pairwise r (sortResults t) ih

theorem filter_insertDesc_ne (r : QARecord) (l : List QARecord) (k : Nat × ℚ)
    (h : keyOf r ≠ k) :
    (insertDesc r l).filter (fun x => decide (keyOf x = k))
      = l.filter (fun x => decide (keyOf x = k)) := by
  induction l with
  | nil => simp [insertDesc, h]
  | cons s t ih =>
    unfold insertDesc
    split
    · simp [List.filter_cons, h]
    · simp only [List.filter_cons, ih]

theorem filter_insertDesc_eq (r : QARecord) (l : List QARecord) (k : Nat × ℚ)
    (hk : keyOf r = k) :
    (insertDesc r l).filter (fun x => decide (keyOf x = k))
      = r :: l.filter (fun x => decide (keyOf x = k)) := by
  induction l with
  | nil => simp [insertDesc, hk]
  | cons s t ih =>
    unfold insertDesc
    by_cases hks : keyGE r s = true
    · rw [if_pos hks]
      simp [List.filter_cons, hk]
    · rw [if_neg (by simp [hks])]
      have hsk : keyOf s ≠ k := by
        intro he
        have := (keyGE_of_not r s (by simpa using hks)).2
        exact this (hk.trans he.symm)
      simp [List.filter_cons, hsk, ih]

theorem sortResults_filter_key (l : List QARecord) (k : Nat × ℚ) :
    (sortResults l).filter (fun x => decide (keyOf x = k))
      = l.filter (fun x => decide (keyOf x = k)) := by
  induction l with
  | nil => rfl
  | cons r t ih =>
    unfold sortResults
    by_cases hk : keyOf r = k
    · rw [filter_insertDesc_eq r _ k hk, ih, List.filter_cons, if_pos (by simp [hk])]
    · rw [filter_insertDesc_ne r _ k hk, ih, List.filter_cons, if_neg (by simp [hk])]

/-! ### Scoring lemmas -/

theorem mem_setScores (kws : List (List Char)) (l : List QARecord) (x : QARecord) :
    x ∈ setScores kws l
      ↔ ∃ r ∈ l, x = { r with relevance_score := scoreOf kws r } := by
  simp [setScores, List.mem_map, eq_comm]

theorem scoreOf_setScore (kws : List (List Char)) (r : QARecord) (n : Nat) :
    scoreOf kws { r with relevance_score := n } = scoreOf kws r := rfl

theorem question_infix_text (r : QARecord) :
    (r.question.map Char.toLower) <:+: qaTextLower r := by
  unfold qaTextLower
  exact List.IsInfix.map Char.toLower
    ( List.IsPrefix.isInfix (List.prefix_append _ _))

theorem answer_infix_text (r : QARecord) :
    (r.answer.map Char.toLower) <:+: qaTextLower r := by
  unfold qaTextLower
  refine List.IsInfix.map Char.toLower ?_
  have heq : r.question ++ ' ' :: (r.answer ++ ' ' :: r.product_name)
      = (r.question ++ [' ']) ++ r.answer ++ (' ' :: r.product_name) := by
    simp [List.append_assoc]
  rw [heq]
  exact List.infix_append _ _ _

theorem product_infix_text (r : QARecord) :
    (r.product_name.map Char.toLower) <:+: qaTextLower r := by
  unfold qaTextLower
  refine List.IsInfix.map Char.toLower ?_
  refine List.IsSuffix.isInfix ?_
  have h1 : r.product_name <:+ ' ' :: r.product_name := List.suffix_cons _ _
  have h2 : ' ' :: r.product_name <:+ r.answer ++ ' ' :: r.product_name :=
    List.suffix_append _ _
  have h3 : r.answer ++ ' ' :: r.product_name
      <:+ ' ' :: (r.answer ++ ' ' :: r.product_name) := List.suffix_cons _ _
  have h4 : ' ' :: (r.answer ++ ' ' :: r.product_name)
      <:+ r.question ++ ' ' :: (r.answer ++ ' ' :: r.product_name) :=
    List.suffix_append _ _
  exact h1.trans (h2.trans (h3.trans h4))

theorem tokenClean_wildcardFree {w : List Char} (h : TokenClean w) :
    WildcardFree w := fun c hc => ⟨(h c hc).1, (h c hc).2.1⟩

theorem tokenClean_star_map {w : List Char} (h : TokenClean w) :
    w.map pgStarToPct = w := by
  calc w.map pgStarToPct = w.map id :=
        List.map_congr_left (fun c hc => by simp [pgStarToPct, (h c hc).2.2.1])
    _ = w := List.map_id w

theorem tokenClean_syntaxOk {w : List Char} (h : TokenClean w) :
    orSyntaxOk w = true := by
  rw [orSyntaxOk, List.all_eq_true]
  intro c hc
  rcases h c hc with ⟨-, -, -, -, h1, h2, h3⟩
  simp [orSyntaxBreaker, h1, h2, h3]

theorem ilikeMatches_iff (kw : List Char) (r : QARecord) (hc : TokenClean kw) :
    ilikeMatches kw r = true ↔
      ((kw.map Char.toLower) <:+: (r.question.map Char.toLower)
       ∨ (kw.map Char.toLower) <:+: (r.answer.map Char.toLower)
       ∨ (kw.map Char.toLower) <:+: (r.product_name.map Char.toLower)) := by
  simp [ilikeMatches, pgPattern, tokenClean_star_map hc, Bool.or_eq_true,
    sqlLikeCI_pat_iff kw (tokenClean_wildcardFree hc), or_assoc]

theorem tbs_down_nil (store : Store) (h : store.up = false) (q : List Char)
    (cf : Option (List Char)) (k : Nat) :
    text_based_search_qa store q cf k = [] := by
  have hout : ∀ catId : Option Nat,
      (sortResults (setScores (keywordsOf q)
        (candidatesOf store catId (keywordsOf q)))).take k = [] := by
    intro catId
    unfold candidatesOf
    rw [gatherResults_down store h]
    simp [dedupById, dedupAux, setScores, sortResults]
  unfold text_based_search_qa
  cases cf with
  | none => simpa [resolveCategory] using hout none
  | some name =>
    by_cases h1 : name = []
    · simpa [resolveCategory, h1] using hout none
    · by_cases h2 : name = allSentinel
      · simpa [resolveCategory, h1, h2] using hout none
      · simp [resolveCategory, h1, h2, h]

/-! ### Claim theorems for the retrieval operation -/

/-- C9: for every query, category filter, `top_k` and store state, the
sequence returned by `text_based_search_qa` has length at most `top_k`. -/
theorem C9_length_le_top_k (store : Store) (q : List Char)
    (cf : Option (List Char)) (k : Nat) :
    (text_based_search_qa store q cf k).length ≤ k := by
  cases hres : resolveCategory store cf with
  | error e => simp [text_based_search_qa, hres]
  | ok catId =>
    simp only [text_based_search_qa, hres]
    exact List.length_take_le _ _

/-- C3 (amended): when the store is unreachable `text_based_search_qa`
returns the empty list — the same value as a successful search with no
matches, so the caller cannot distinguish the two cases; the failure is
only logged.  (The claim as stated — a failure surfaced distinctly from
the empty result — is refuted by `C3_conflation_counterexample`.) -/
theorem C3_failure_returns_empty (store : Store) (h : store.up = false)
    (q : List Char) (cf : Option (List Char)) (k : Nat) :
    text_based_search_qa store q cf k = [] :=
  tbs_down_nil store h q cf k

theorem C3_failure_returns_empty_witness :
    text_based_search_qa exStoreDownPrice
      ['p', 'r', 'i', 'c', 'e'] none 10 = [] :=
  C3_failure_returns_empty exStoreDownPrice rfl ['p', 'r', 'i', 'c', 'e'] none 10

/-- C3 counterexample: an unreachable store holding a record that the
query would match produces exactly the same observable result (`[]`) as a
reachable store with no data at all, so "could not search" is NOT
distinguishable from "nothing matched"; for contrast, the same query on
the same data with the store reachable returns one row. -/
theorem C3_conflation_counterexample :
    text_based_search_qa exStoreDownPrice ['p', 'r', 'i', 'c', 'e'] none 10
        = text_based_search_qa exStoreEmpty ['p', 'r', 'i', 'c', 'e'] none 10
    ∧ text_based_search_qa exStoreDownPrice ['p', 'r', 'i', 'c', 'e'] none 10 = []
    ∧ (text_based_search_qa exStorePrice ['p', 'r', 'i', 'c', 'e'] none 10).length
        = 1 := by decide

/-- C7: tokens of length at most 1 never affect candidacy or scoring: the
query with all such tokens removed produces identical ordered output. -/
theorem C7_short_tokens_irrelevant (store : Store) (q : List Char)
    (cf : Option (List Char)) (k : Nat) :
    text_based_search_qa store (shortTokensRemoved q) cf k
      = text_based_search_qa store q cf k := by
  simp only [text_based_search_qa, keywordsOf_shortTokensRemoved]

/-- C8: a category-filter name that resolves to no known category is
silently dropped: the call behaves exactly as with no filter. -/
theorem C8_unresolved_filter_dropped (store : Store) (q : List Char)
    (k : Nat) (name : List Char) (h0 : name ≠ []) (h1 : name ≠ allSentinel)
    (h2 : ∀ c ∈ store.categories, c.category_name ≠ name) :
    text_based_search_qa store q (some name) k
      = text_based_search_qa store q none k := by
  cases hup : store.up with
  | false => rw [tbs_down_nil store hup q (some name) k, tbs_down_nil store hup q none k]
  | true =>
    have hf : store.categories.filter (fun c => decide (c.category_name = name)) = [] :=
      List.filter_eq_nil_iff.mpr (by intro c hc; simpa using h2 c hc)
    have hres : resolveCategory store (some name) = .ok none := by
      simp [resolveCategory, h0, h1, hup, hf]
    simp only [text_based_search_qa, hres,
      show resolveCategory store none = Except.ok none from rfl]

theorem C8_unresolved_filter_dropped_witness :
    text_based_search_qa exStoreTV ['t', 'v'] (some ['없', '음']) 10
      = text_based_search_qa exStoreTV ['t', 'v'] none 10 :=
  C8_unresolved_filter_dropped exStoreTV ['t', 'v'] 10 ['없', '음']
    (by decide) (by decide) (by decide)

/-- C2 (amended): the `relevance_score` of every returned record equals
the count WITH MULTIPLICITY of query tokens (length > 1) whose lowering
occurs in the lowered concatenation `question + " " + answer + " " +
product_name` — a token repeated in the query is counted once per
occurrence, so repeating a token does change the observable output.  (The
claim's distinct-token count is refuted by
`C2_distinct_count_counterexample`.) -/
theorem C2_relevance_counts_multiplicity (store : Store) (q : List Char)
    (cf : Option (List Char)) (k : Nat) (r : QARecord)
    (h : r ∈ text_based_search_qa store q cf k) :
    r.relevance_score = (keywordsOf q).countP
      (fun kw => containsSub (kw.map Char.toLower) (qaTextLower r)) := by
  unfold text_based_search_qa at h
  cases hres : resolveCategory store cf with
  | error e => rw [hres] at h; simp at h
  | ok catId =>
    rw [hres] at h
    have h2 := (mem_sortResults _ _).mp (List.mem_of_mem_take h)
    rcases (mem_setScores _ _ _).mp h2 with ⟨r0, hr0, rfl⟩
    rfl

theorem C2_relevance_counts_multiplicity_witness :
    ({ exRecPrice with relevance_score := 2 } : QARecord).relevance_score
      = (keywordsOf exQueryPP).countP
        (fun kw => containsSub (kw.map Char.toLower)
          (qaTextLower { exRecPrice with relevance_score := 2 })) :=
  C2_relevance_counts_multiplicity exStorePrice exQueryPP none 10
    { exRecPrice with relevance_score := 2 } (by decide)

/-- C2 counterexample: under the query `"price price"` the single stored
record matching `"price"` is returned with `relevance_score = 2`, while
the count of DISTINCT matching tokens is 1 — and the same query without
the repetition returns the record with `relevance_score = 1`, so
repeating a token does change the observable output. -/
theorem C2_distinct_count_counterexample :
    (text_based_search_qa exStorePrice exQueryPP none 10).map
        (fun r => r.relevance_score) = [2]
    ∧ distinctScoreOf (keywordsOf exQueryPP) exRecPrice = 1
    ∧ (text_based_search_qa exStorePrice ['p', 'r', 'i', 'c', 'e'] none 10).map
        (fun r => r.relevance_score) = [1] := by decide

/-- C6: the returned sequence is ordered so that each record's
`(relevance_score, confidence_score)` pair is lexicographically at least
its successor's, and the sort is stable: records with equal keys keep
their original retrieval order (for each key value, filtering the sorted
list yields exactly the filtered input).  Determinism given identical
input is immediate since `text_based_search_qa` is a function of its
arguments. -/
theorem C6_sorted_and_stable :
    (∀ (store : Store) (q : List Char) (cf : Option (List Char)) (k : Nat),
      (text_based_search_qa store q cf k).Chain'
        (fun a b => KeyGE (keyOf a) (keyOf b)))
    ∧ (∀ (l : List QARecord) (kv : Nat × ℚ),
        (sortResults l).filter (fun x => decide (keyOf x = kv))
          = l.filter (fun x => decide (keyOf x = kv))) := by
  constructor
  · intro store q cf k
    cases hres : resolveCategory store cf with
    | error e => simp [text_based_search_qa, hres]
    | ok catId =>
      simp only [text_based_search_qa, hres]
      exact List.Pairwise.chain'
        ((sortResults_pairwise _).sublist (List.take_sublist _ _))
  · exact sortResults_filter_key

/-- C5 (amended): provided every token is literal in the query pipeline —
free of the SQL wildcards `%` and `_`, of `*` (rewritten to `%` by
PostgREST), of the `LIKE` escape `\`, and of the `or=` syntax characters
`,` `(` `)` — no returned record has `relevance_score = 0`: every
survivor of candidate gathering matched some token inside one field, and
the Step-4 re-scoring over the full concatenation therefore counts at
least that token.  (Without the proviso the claim is refuted by
`C5_wildcard_zero_counterexample`: a token containing `%`, or `*` which
PostgREST rewrites to `%`, gathers a candidate via the `ilike` pattern
that the literal substring re-scoring then scores 0.) -/
theorem C5_returned_scores_positive (store : Store) (q : List Char)
    (cf : Option (List Char)) (k : Nat)
    (hw : ∀ kw ∈ keywordsOf q, TokenClean kw) (r : QARecord)
    (h : r ∈ text_based_search_qa store q cf k) :
    1 ≤ r.relevance_score := by
  unfold text_based_search_qa at h
  cases hres : resolveCategory store cf with
  | error e => rw [hres] at h; simp at h
  | ok catId =>
    rw [hres] at h
    have h2 := (mem_sortResults _ _).mp (List.mem_of_mem_take h)
    rcases (mem_setScores _ _ _).mp h2 with ⟨r0, hr0, rfl⟩
    have hg : r0 ∈ gatherResults store catId [] (keywordsOf q) :=
      dedupById_subset _ _ hr0
    rcases gather_decomp store catId (keywordsOf q) [] r0 hg with
      ⟨_, _, _, kw, hkw, _, hilike⟩
    have hinf : (kw.map Char.toLower) <:+: qaTextLower r0 := by
      rcases (ilikeMatches_iff kw r0 (hw kw hkw)).mp hilike with hq | ha | hp
      · exact hq.trans (question_infix_text r0)
      · exact ha.trans (answer_infix_text r0)
      · exact hp.trans (product_infix_text r0)
    have hcs : containsSub (kw.map Char.toLower) (qaTextLower r0) = true :=
      (containsSub_iff _ _).mpr hinf
    exact List.countP_pos_iff.mpr ⟨kw, hkw, hcs⟩

theorem C5_returned_scores_positive_witness :
    1 ≤ ({ exRecTV with relevance_score := 1 } : QARecord).relevance_score :=
  C5_returned_scores_positive exStoreTV ['t', 'v'] none 10 (by decide)
    { exRecTV with relevance_score := 1 } (by decide)

/-- C5 counterexample: against a store holding a record whose question is
`"abc"`, the one-token queries `"a%c"` and `"a*c"` (PostgREST rewrites
the `*` to `%`, so both reach the server as the pattern `%a%c%`) each
gather and return the record with `relevance_score = 0` — a returned
record scoring 0 from a non-empty candidate set. -/
theorem C5_wildcard_zero_counterexample :
    (text_based_search_qa exStoreABC exQueryWild none 10).map
        (fun r => r.relevance_score) = [0]
    ∧ (text_based_search_qa exStoreABC exQueryStar none 10).map
        (fun r => r.relevance_score) = [0]
    ∧ text_based_search_qa exStoreABC exQueryWild none 10 ≠ []
    ∧ text_based_search_qa exStoreABC exQueryStar none 10 ≠ [] := by decide

/-- C1 (amended): the per-token queries are NOT independent — the shared
query builder accumulates every earlier token's `or=` group, so iteration
i requires tokens 1..i simultaneously and the gathered union collapses to
the FIRST surviving token's matches.  Provided every token is literal in
the query pipeline (free of `%`, `_`, `*`, `\`, `,`, `(`, `)`), a record
is a candidate if and only if it is stored, passes the confidence floor
0.5 and the resolved category filter, and the FIRST surviving token
occurs as a case-insensitive substring of at least one of `question`,
`answer`, `product_name`; a record matching only a later token is never
gathered.  (The claimed any-token union is refuted by
`C1_union_counterexample`.) -/
theorem C1_candidate_first_token_iff (store : Store) (q : List Char)
    (cf : Option (List Char)) (catId : Option Nat) (r : QARecord)
    (kw1 : List Char) (rest : List (List Char))
    (hup : store.up = true)
    (hids : ∀ a ∈ store.qa, ∀ b ∈ store.qa, a.id = b.id → a = b)
    (_hres : resolveCategory store cf = .ok catId)
    (hkw : keywordsOf q = kw1 :: rest)
    (hw : ∀ kw ∈ keywordsOf q, TokenClean kw) :
    r ∈ candidatesOf store catId (keywordsOf q)
      ↔ r ∈ store.qa ∧ mkRat 1 2 ≤ r.confidence_score
        ∧ categoryOk catId r = true
        ∧ ((kw1.map Char.toLower) <:+: (r.question.map Char.toLower)
           ∨ (kw1.map Char.toLower) <:+: (r.answer.map Char.toLower)
           ∨ (kw1.map Char.toLower) <:+: (r.product_name.map Char.toLower)) := by
  have hkw1mem : kw1 ∈ keywordsOf q := by
    rw [hkw]; exact List.mem_cons_self kw1 rest
  have hclean1 : TokenClean kw1 := hw kw1 hkw1mem
  unfold candidatesOf
  have hinj : ∀ a ∈ gatherResults store catId [] (keywordsOf q),
      ∀ b ∈ gatherResults store catId [] (keywordsOf q), a.id = b.id → a = b :=
    fun a ha b hb => hids a (gatherResults_subset _ _ _ _ _ ha)
      b (gatherResults_subset _ _ _ _ _ hb)
  rw [mem_dedupById _ hinj, hkw,
    mem_gather_first store catId kw1 rest r hup
      (keywords_long q kw1 hkw1mem) (tokenClean_syntaxOk hclean1),
    accPred_iff]
  constructor
  · rintro ⟨hqa, hcat, hall, hconf⟩
    exact ⟨hqa, hconf, hcat, (ilikeMatches_iff kw1 r hclean1).mp
      (hall kw1 (List.mem_singleton.mpr rfl))⟩
  · rintro ⟨hqa, hconf, hcat, hhit⟩
    refine ⟨hqa, hcat, ?_, hconf⟩
    intro g hg
    rw [List.mem_singleton.mp hg]
    exact (ilikeMatches_iff kw1 r hclean1).mpr hhit

theorem C1_candidate_first_token_iff_witness :
    exRecTV ∈ candidatesOf exStoreTV (some 7) (keywordsOf ['t', 'v'])
      ↔ exRecTV ∈ exStoreTV.qa ∧ mkRat 1 2 ≤ exRecTV.confidence_score
        ∧ categoryOk (some 7) exRecTV = true
        ∧ ((['t', 'v'].map Char.toLower) <:+: (exRecTV.question.map Char.toLower)
           ∨ (['t', 'v'].map Char.toLower) <:+: (exRecTV.answer.map Char.toLower)
           ∨ (['t', 'v'].map Char.toLower) <:+: (exRecTV.product_name.map Char.toLower)) :=
  C1_candidate_first_token_iff exStoreTV ['t', 'v'] (some ['가', '전']) (some 7)
    exRecTV ['t', 'v'] [] rfl (by decide) rfl (by decide) (by decide)

/-- C1 counterexample: under query `"alpha beta"` the stored, confident
record whose question contains the surviving token `"beta"` as a
substring is NOT a candidate — the first iteration's query requires
`"alpha"`, and the second iteration's query, issued on the mutated shared
builder, requires `"alpha"` AND `"beta"` — although the same record IS
the sole candidate under the one-token query `"beta"`.  This refutes both
the any-token union and the independence of the per-token queries. -/
theorem C1_union_counterexample :
    candidatesOf exStoreBeta none (keywordsOf exQueryAB) = []
    ∧ ['b', 'e', 't', 'a'] ∈ keywordsOf exQueryAB
    ∧ substrTokenHit ['b', 'e', 't', 'a'] exRecBeta = true
    ∧ mkRat 1 2 ≤ exRecBeta.confidence_score
    ∧ candidatesOf exStoreBeta none (keywordsOf ['b', 'e', 't', 'a'])
        = [exRecBeta] := by decide

/-! ### Publisher-derivation lemmas and claim C4 -/

theorem replAux_skip (pat repl : List Char) :
    ∀ (t rest : List Char),
      replAux pat repl t.length (t ++ rest) = replAux pat repl 0 rest := by
  intro t
  induction t with
  | nil => intro rest; rfl
  | cons c cs ih =>
    intro rest
    simp only [List.cons_append, List.length_cons, replAux]
    exact ih rest

theorem replAux_no_occur (pat repl s : List Char)
    (h : containsSub pat s = false) : replAux pat repl 0 s = s := by
  induction s with
  | nil => rfl
  | cons c cs ih =>
    rcases Bool.or_eq_false_iff.mp (by simpa [containsSub] using h) with ⟨hp, hc⟩
    simp only [replAux]
    rw [if_neg (by simp [hp]), ih hc]

theorem replAux_head_hit (pat repl rest : List Char) (hpat : pat ≠ []) :
    replAux pat repl 0 (pat ++ rest) = repl ++ replAux pat repl 0 rest := by
  cases pat with
  | nil => exact absurd rfl hpat
  | cons c p =>
    simp only [List.cons_append, replAux]
    rw [if_pos (by
      rw [ List.isPrefixOf_iff_prefix]
      exact ⟨rest, by simp⟩)]
    congr 1
    have hlen : (c :: p).length - 1 = p.length := by simp
    rw [hlen]
    exact replAux_skip (c :: p) repl p rest

theorem containsSub_https_after_http (rest : List Char) :
    containsSub httpsLit (httpLit ++ rest) = containsSub httpsLit rest := by
  simp [httpLit, httpsLit, containsSub, List.isPrefixOf]

/-- C4 (amended): the publisher equals the link with only a leading
`https://` or `http://` removed and truncated at the first `/`, PROVIDED
neither `"https://"` nor `"http://"` occurs anywhere beyond that leading
prefix — because the code removes EVERY occurrence (`str.replace`
replaces all, not just a leading one); the unconditional claim is refuted
by `C4_nonleading_counterexample`. -/
theorem C4_publisher_leading_strip (l : List Char)
    (h1 : containsSub httpsLit (stripSchemeSpec l) = false)
    (h2 : containsSub httpLit (stripSchemeSpec l) = false) :
    newsPublisher (some l) = leadingStripPublisherSpec (some l) := by
  by_cases hnil : l = []
  · subst hnil; rfl
  · simp only [newsPublisher, leadingStripPublisherSpec, if_neg hnil]
    congr 1
    by_cases hA : httpsLit.isPrefixOf l = true
    · rcases ( List.isPrefixOf_iff_prefix).mp hA with ⟨rest, hrest⟩
      subst hrest
      have hstrip : stripSchemeSpec (httpsLit ++ rest) = rest := by
        unfold stripSchemeSpec
        rw [if_pos hA]
        exact List.drop_left httpsLit rest
      rw [hstrip] at h1 h2
      unfold pyReplace
      rw [replAux_head_hit httpsLit [] rest (by decide), List.nil_append,
        replAux_no_occur _ _ _ h1, replAux_no_occur _ _ _ h2, hstrip]
    · by_cases hB : httpLit.isPrefixOf l = true
      · rcases ( List.isPrefixOf_iff_prefix).mp hB with ⟨rest, hrest⟩
        subst hrest
        have hstrip : stripSchemeSpec (httpLit ++ rest) = rest := by
          unfold stripSchemeSpec
          rw [if_neg hA, if_pos hB]
          exact List.drop_left httpLit rest
        rw [hstrip] at h1 h2
        unfold pyReplace
        have e1 : replAux httpsLit [] 0 (httpLit ++ rest) = httpLit ++ rest :=
          replAux_no_occur _ _ _ (by rw [containsSub_https_after_http]; exact h1)
        have e2 : replAux httpLit [] 0 (httpLit ++ rest)
            = [] ++ replAux httpLit [] 0 rest :=
          replAux_head_hit httpLit [] rest (by decide)
        have e3 : replAux httpLit [] 0 rest = rest := replAux_no_occur _ _ _ h2
        rw [e1, e2, List.nil_append, e3, hstrip]
      · have hstrip : stripSchemeSpec l = l := by
          unfold stripSchemeSpec
          rw [if_neg hA, if_neg hB]
        rw [hstrip] at h1 h2
        unfold pyReplace
        rw [replAux_no_occur _ _ _ h1, replAux_no_occur _ _ _ h2, hstrip]

theorem C4_publisher_leading_strip_witness :
    newsPublisher (some "https://example.com/path".toList)
      = leadingStripPublisherSpec (some "https://example.com/path".toList) :=
  C4_publisher_leading_strip "https://example.com/path".toList
    (by decide) (by decide)

/-- C4 counterexample: for the link `"xhttps://foo.com/bar"`, whose
`"https://"` occurrence is NOT a leading prefix, the code removes the
inner occurrence and derives `"xfoo.com"`, while removing only a leading
prefix would derive `"xhttps:"`. -/
theorem C4_nonleading_counterexample :
    newsPublisher (some ('x' :: "https://foo.com/bar".toList))
        = "xfoo.com".toList
    ∧ leadingStripPublisherSpec (some ('x' :: "https://foo.com/bar".toList))
        = "xhttps:".toList := by decide

/-! ### Embedding-padding claim C10 -/

/-- C10: `generate_embedding` returns either `None` — when the model is
absent, the text is falsy or strips to fewer than 5 characters, or the
encoder raises — or a list of exactly 1536 rationals: a 768-dimensional
encoder output is padded with 768 zeros, any shorter output is zero-padded
to 1536, and any longer output is truncated to 1536. -/
theorem C10_embedding_none_or_1536 (m : Bool)
    (enc : List Char → Except Unit (List ℚ)) (text : List Char) (l : List ℚ)
    (h : generate_embedding m enc text = some l) : l.length = 1536 := by
  unfold generate_embedding at h
  split at h
  · simp at h
  · split at h
    · simp at h
    · rename_i emb henc
      by_cases h768 : emb.length = 768
      · rw [if_pos h768] at h
        rcases Option.some.inj h with rfl
        rw [List.length_append, List.length_replicate, h768]
      · rw [if_neg h768] at h
        by_cases h1536 : emb.length = 1536
        · rw [if_pos h1536] at h
          rcases Option.some.inj h with rfl
          exact h1536
        · rw [if_neg h1536] at h
          by_cases hlt : emb.length < 1536
          · rw [if_pos hlt] at h
            rcases Option.some.inj h with rfl
            simp [Nat.add_sub_cancel' (Nat.le_of_lt hlt)]
          · rw [if_neg hlt] at h
            rcases Option.some.inj h with rfl
            simp [List.length_take, Nat.min_eq_left (Nat.le_of_not_lt hlt)]

set_option maxRecDepth 4000 in
theorem C10_embedding_none_or_1536_witness :
    (([1, 2, 3] : List ℚ) ++ List.replicate 1533 (0 : ℚ)).length = 1536 :=
  C10_embedding_none_or_1536 true exEncode ['h', 'e', 'l', 'l', 'o']
    (([1, 2, 3] : List ℚ) ++ List.replicate 1533 (0 : ℚ)) (by rfl)

end QAApp
